import Mathlib

/-!
# Verification of the tetherion proof-of-work blockchain

Shallow embedding of the Rust sources `src/block.rs`, `src/tetherion.rs` and
`src/p2p.rs` of the tetherion repository, together with theorems settling the
spec claims about them.

Modelling conventions:
* Rust `String` values are `List Char`; `u64`/`usize` are `Nat`; `i64` is `Int`.
  The claims under study never exercise 64-bit wrap-around, so machine widths
  are not truncated.
* The SHA-256 digest comes from the external `sha2` crate, outside this
  repository; it is implemented here executably, directly from the FIPS 180-4
  description (round constants derived from the fractional parts of cube/square
  roots of the first primes, exactly as the standard defines them).
* Rust panics (`panic!`, `expect`) are modelled by `Option`/dedicated result
  constructors: `none` (or `MineResult.panicked`) means the operation aborts.
* The unbounded `loop` in `Block::mine` becomes a fuelled loop `mineLoop`;
  divergence of the Rust loop is `mineLoop fuel b d = none` for every fuel.
-/

/-- Truncation to a 32-bit word (the compression function works on `u32`). -/
def u32 (x : Nat) : Nat := x % 4294967296

/-- Right rotation of a 32-bit word by `n` places. -/
def rotr (n x : Nat) : Nat := u32 ((x >>> n) ||| (x <<< (32 - n)))

/-- SHA-256 choice function `Ch(x,y,z) = (x ∧ y) ⊕ (¬x ∧ z)` on 32-bit words. -/
def shaCh (x y z : Nat) : Nat := (x &&& y) ^^^ ((x ^^^ 4294967295) &&& z)

/-- SHA-256 majority function. -/
def shaMaj (x y z : Nat) : Nat := (x &&& y) ^^^ (x &&& z) ^^^ (y &&& z)

/-- SHA-256 big sigma-0. -/
def bigSigma0 (x : Nat) : Nat := rotr 2 x ^^^ rotr 13 x ^^^ rotr 22 x

/-- SHA-256 big sigma-1. -/
def bigSigma1 (x : Nat) : Nat := rotr 6 x ^^^ rotr 11 x ^^^ rotr 25 x

/-- SHA-256 small sigma-0. -/
def smallSigma0 (x : Nat) : Nat := rotr 7 x ^^^ rotr 18 x ^^^ (x >>> 3)

/-- SHA-256 small sigma-1. -/
def smallSigma1 (x : Nat) : Nat := rotr 17 x ^^^ rotr 19 x ^^^ (x >>> 10)

/-- Integer cube root, by binary descent over the bits (inputs stay below 2^192). -/
def icbrt (n : Nat) : Nat :=
  (List.range 64).foldl (fun r i => let c := r + 2 ^ (63 - i); if c ^ 3 ≤ n then c else r) 0

/-- Primality test by trial division, used only to derive the SHA-256 constants. -/
def isPrimeB (n : Nat) : Bool :=
  Nat.ble 2 n && (List.range n).all (fun d => Nat.blt d 2 || n % d != 0)

/-- The first `k` prime numbers (the 64th prime is 311 < 400). -/
def firstPrimes (k : Nat) : List Nat := ((List.range 400).filter isPrimeB).take k

/-- First 32 bits of the fractional part of the cube root of `p`. -/
def cbrtFrac32 (p : Nat) : Nat := icbrt (p * 2 ^ 96) % 2 ^ 32

/-- First 32 bits of the fractional part of the square root of `p`. -/
def sqrtFrac32 (p : Nat) : Nat := Nat.sqrt (p * 2 ^ 64) % 2 ^ 32

/-- SHA-256 round constants: fractional cube roots of the first 64 primes. -/
def shaK : List Nat := (firstPrimes 64).map cbrtFrac32

/-- SHA-256 initial state: fractional square roots of the first 8 primes. -/
def shaH0 : List Nat := (firstPrimes 8).map sqrtFrac32

/-- Big-endian serialisation of `n` into `k` bytes. -/
def toBytesBE (k n : Nat) : List Nat :=
  (List.range k).map (fun i => (n >>> (8 * (k - 1 - i))) % 256)

/-- SHA-256 padding: a 0x80 byte, zeros up to 56 mod 64, and the bit length. -/
def padMessage (m : List Nat) : List Nat :=
  m ++ [128] ++ List.replicate ((119 - m.length % 64) % 64) 0 ++ toBytesBE 8 (8 * m.length)

/-- Split a byte sequence into successive 64-byte chunks. -/
def chunks64 (l : List Nat) : List (List Nat) :=
  if h : l = [] then [] else l.take 64 :: chunks64 (l.drop 64)
termination_by l.length
decreasing_by
  have hpos : 0 < l.length := List.length_pos.mpr h
  simp only [List.length_drop]
  omega

/-- Word `i` of a 64-byte chunk, big-endian. -/
def wordOf (chunk : List Nat) (i : Nat) : Nat :=
  chunk.getD (4 * i) 0 <<< 24 ||| chunk.getD (4 * i + 1) 0 <<< 16 |||
    chunk.getD (4 * i + 2) 0 <<< 8 ||| chunk.getD (4 * i + 3) 0

/-- Extend the 16-word message schedule by `fuel` further words. -/
def extendW (w : List Nat) : Nat → List Nat
  | 0 => w
  | fuel + 1 =>
    let i := w.length
    extendW (w ++ [u32 (smallSigma1 (w.getD (i - 2) 0) + w.getD (i - 7) 0 +
      smallSigma0 (w.getD (i - 15) 0) + w.getD (i - 16) 0)]) fuel

/-- One SHA-256 compression round; the state is `[a,b,c,d,e,f,g,h]`. -/
def shaRound (st : List Nat) (kw : Nat × Nat) : List Nat :=
  let a := st.getD 0 0
  let b := st.getD 1 0
  let c := st.getD 2 0
  let d := st.getD 3 0
  let e := st.getD 4 0
  let f := st.getD 5 0
  let g := st.getD 6 0
  let h := st.getD 7 0
  let t1 := u32 (h + bigSigma1 e + shaCh e f g + kw.1 + kw.2)
  let t2 := u32 (bigSigma0 a + shaMaj a b c)
  [u32 (t1 + t2), a, b, c, u32 (d + t1), e, f, g]

/-- Process one 64-byte chunk: 64 rounds, then add into the incoming state. -/
def processChunk (st chunk : List Nat) : List Nat :=
  let w := extendW ((List.range 16).map (wordOf chunk)) 48
  let st' := (shaK.zip w).foldl shaRound st
  List.zipWith (fun x y => u32 (x + y)) st st'

/-- SHA-256 digest of a byte sequence; always 32 bytes long. -/
def sha256 (m : List Nat) : List Nat :=
  (((chunks64 (padMessage m)).foldl processChunk shaH0).map (toBytesBE 4)).flatten

theorem shaRound_length (st : List Nat) (kw : Nat × Nat) : (shaRound st kw).length = 8 := rfl

theorem foldl_shaRound_length (l : List (Nat × Nat)) (st : List Nat) (h : st.length = 8) :
    (l.foldl shaRound st).length = 8 := by
  induction l generalizing st with
  | nil => exact h
  | cons x xs ih => exact ih _ (shaRound_length st x)

theorem processChunk_length (st c : List Nat) (h : st.length = 8) :
    (processChunk st c).length = 8 := by
  simp only [processChunk, List.length_zipWith, h,
    foldl_shaRound_length _ _ h, Nat.min_self]

theorem shaH0_length : shaH0.length = 8 := by decide

theorem toBytesBE_length (k n : Nat) : (toBytesBE k n).length = k := by
  simp [toBytesBE]

theorem flatten_map_toBytesBE_length (l : List Nat) :
    ((l.map (toBytesBE 4)).flatten).length = 4 * l.length := by
  induction l with
  | nil => rfl
  | cons x xs ih =>
    simp only [List.map_cons, List.flatten_cons, List.length_append, ih, toBytesBE_length,
      List.length_cons]
    omega

theorem sha256_length (m : List Nat) : (sha256 m).length = 32 := by
  have h8 : ∀ (cs : List (List Nat)) (st : List Nat), st.length = 8 →
      (cs.foldl processChunk st).length = 8 := by
    intro cs
    induction cs with
    | nil => intro st h; exact h
    | cons c cs ih => intro st h; exact ih _ (processChunk_length st c h)
  have := h8 (chunks64 (padMessage m)) shaH0 shaH0_length
  simp only [sha256, flatten_map_toBytesBE_length, this]

/-- Lowercase hex digit, as produced by `hex::encode`. -/
def hexDigit (n : Nat) : Char := if n < 10 then Char.ofNat (48 + n) else Char.ofNat (87 + n)

/-- The `hex::encode` of a byte sequence: two lowercase hex characters per byte. -/
def hexEncode (bs : List Nat) : List Char :=
  (bs.map (fun b => [hexDigit (b / 16), hexDigit (b % 16)])).flatten

theorem hexEncode_length (bs : List Nat) : (hexEncode bs).length = 2 * bs.length := by
  induction bs with
  | nil => rfl
  | cons b bs ih =>
    simp only [hexEncode, List.map_cons, List.flatten_cons, List.length_append,
      List.length_cons, List.length_nil, List.length_map] at *
    omega

/-- Decimal rendering of an `i64`, as Rust's `Display` for integers. -/
def intToChars (i : Int) : List Char :=
  if i < 0 then '-' :: Nat.toDigits 10 i.natAbs else Nat.toDigits 10 i.natAbs

/-- The struct `Block<String>` from `src/block.rs`.  Field order and names are the
source's; `u64` is `Nat`, `i64` is `Int`, `String` is `List Char`. -/
structure Block where
  id : Nat
  hash : List Char
  previous_hash : List Char
  timestamp : Int
  nonce : Nat
  data : List Char
deriving DecidableEq, Repr

/-- `Block::hash_data`: the hash input, concatenating the decimal renderings of
`id`, `timestamp`, `nonce` with `previous_hash` and `data`, in source order. -/
def Block.hash_data (b : Block) : List Char :=
  Nat.toDigits 10 b.id ++ b.previous_hash ++ intToChars b.timestamp ++
    Nat.toDigits 10 b.nonce ++ b.data

/-- The hash written by one iteration of `Block::mine`:
`hex::encode(Sha256(hash_data))`.  Bytes are `Char.toNat` (all characters that
actually occur in rendered fields are ASCII, where UTF-8 agrees). -/
def computeHash (b : Block) : List Char := hexEncode (sha256 (b.hash_data.map Char.toNat))

theorem computeHash_length (b : Block) : (computeHash b).length = 64 := by
  simp [computeHash, hexEncode_length, sha256_length]

/-- `Block::is_valid`: the stored hash starts with `difficulty * HEX_SIZE`
(`HEX_SIZE = 2`) literal `'0'` characters; the hash is not recomputed. -/
def Block.is_valid (b : Block) (difficulty : Nat) : Bool :=
  (List.replicate (difficulty * 2) '0').isPrefixOf b.hash

/-- The `loop` body of `Block::mine`, fuelled: write the digest of the current
fields into `hash`, stop if valid for the difficulty, else retry at `nonce + 1`.
`none` means the fuel ran out (the Rust loop is still running). -/
def mineLoop : Nat → Block → Nat → Option Block
  | 0, _, _ => none
  | fuel + 1, b, difficulty =>
    let b' := { b with hash := computeHash b }
    if b'.is_valid difficulty then some b'
    else mineLoop fuel { b' with nonce := b'.nonce + 1 } difficulty

/-- Outcome of `Block::mine`: the source panics when `nonce ≠ 0` on entry
("Block should be mined only once"), otherwise loops until a valid hash. -/
inductive MineResult where
  | panicked
  | outOfFuel
  | mined (b : Block)
deriving DecidableEq, Repr

/-- `Block::mine` with fuel for the unbounded search loop. -/
def Block.mine (fuel : Nat) (b : Block) (difficulty : Nat) : MineResult :=
  if b.nonce ≠ 0 then MineResult.panicked
  else
    match mineLoop fuel b difficulty with
    | some b' => MineResult.mined b'
    | none => MineResult.outOfFuel

/-- `Block::new`: a fresh block (empty hash, nonce 0, timestamp = now) that is
mined immediately.  `now` stands for `chrono::Utc::now().timestamp()`. -/
def Block.new (id : Nat) (previous_hash data : List Char) (difficulty : Nat)
    (now : Int) (fuel : Nat) : MineResult :=
  Block.mine fuel ⟨id, [], previous_hash, now, 0, data⟩ difficulty

/-- The error enum of `src/tetherion.rs`. -/
inductive InvalidBlockError where
  | InvalidBlockId (id previous_id : Nat)
  | InvalidPreviousHash (id : Nat)
  | InvalidDifficulty (id : Nat) (difficulty : Nat)
deriving DecidableEq, Repr

/-- The struct `Tetherion<String>` from `src/tetherion.rs`. -/
structure Tetherion where
  blocks : List Block
  difficulty : Nat
deriving DecidableEq, Repr

/-- `Tetherion::is_valid_block`: id continuity, then previous-hash linkage,
then difficulty, in that order; first failing check wins. -/
def is_valid_block (previous_block block : Block) (difficulty : Nat) :
    Except InvalidBlockError Unit :=
  if block.id ≠ previous_block.id + 1 then
    Except.error (InvalidBlockError.InvalidBlockId block.id previous_block.id)
  else if block.previous_hash ≠ previous_block.hash then
    Except.error (InvalidBlockError.InvalidPreviousHash block.id)
  else if block.is_valid difficulty = false then
    Except.error (InvalidBlockError.InvalidDifficulty block.id difficulty)
  else Except.ok ()

/-- `Tetherion::add_block`, state-passing: the result of the call together with
the chain afterwards.  `none` models the `expect` panic on an empty chain. -/
def Tetherion.add_block (t : Tetherion) (block : Block) :
    Option (Except InvalidBlockError Unit × Tetherion) :=
  match t.blocks.getLast? with
  | none => none
  | some previous_block =>
    match is_valid_block previous_block block t.difficulty with
    | Except.ok _ => some (Except.ok (), ⟨t.blocks ++ [block], t.difficulty⟩)
    | Except.error e => some (Except.error e, t)

/-- The index loop of `Tetherion::is_valid`, as recursion over adjacent pairs:
check `(blocks[i-1], blocks[i])` for `i = 1, …, len - 1`. -/
def validFrom (difficulty : Nat) : Block → List Block → Except InvalidBlockError Unit
  | _, [] => Except.ok ()
  | prev, b :: rest =>
    match is_valid_block prev b difficulty with
    | Except.ok _ => validFrom difficulty b rest
    | Except.error e => Except.error e

/-- `Tetherion::is_valid`: pairwise checks from index 1; an empty block list
makes the loop body run zero times (the `debug_assert!` is compiled out of
release builds and is not part of the function's release semantics). -/
def Tetherion.is_valid (t : Tetherion) : Except InvalidBlockError Unit :=
  match t.blocks with
  | [] => Except.ok ()
  | b :: rest => validFrom t.difficulty b rest

/-- `Tetherion::creation_timestamp`: the genesis block's timestamp; `none`
models the `expect` panic on an empty chain. -/
def Tetherion.creation_timestamp (t : Tetherion) : Option Int :=
  t.blocks.head?.map Block.timestamp

/-- `TetherionBehaviour::is_better_than` from `src/p2p.rs` (`lc` is the local
chain, `rc` the remote one).  `none` models the panic when both chains are
invalid, and propagates the `creation_timestamp` panic on empty chains. -/
def is_better_than (lc rc : Tetherion) : Option Bool :=
  match lc.is_valid, rc.is_valid with
  | Except.ok _, Except.ok _ =>
    if lc.blocks.length = rc.blocks.length then
      match lc.creation_timestamp, rc.creation_timestamp with
      | some lt, some rt => some (decide (lt ≤ rt))
      | _, _ => none
    else some (decide (lc.blocks.length ≥ rc.blocks.length))
  | Except.ok _, Except.error _ => some true
  | Except.error _, Except.ok _ => some false
  | Except.error _, Except.error _ => none

/-- The wire message `ChainResponse` (its `tetherion` and `receiver` fields). -/
structure ChainResponse where
  tetherion : Tetherion
  receiver : List Char

/-- The chain selected by fork-choice: the local chain when `is_better_than`,
otherwise the remote one (`inject_event` keeps `self.tetherion` or overwrites
it with `resp.tetherion`); `none` models the both-invalid panic. -/
def chooseChain (lc rc : Tetherion) : Option Tetherion :=
  match is_better_than lc rc with
  | some true => some lc
  | some false => some rc
  | none => none

/-- The `ChainResponse` branch of `inject_event`: act only when addressed to
this node, then replace the local chain with the fork-choice winner. -/
def processChainResponse (myId : List Char) (lc : Tetherion) (resp : ChainResponse) :
    Option Tetherion :=
  if resp.receiver = myId then chooseChain lc resp.tetherion else some lc

/-- `str::strip_prefix`: the remainder after the prefix, when it is one. -/
def dropPfx : List Char → List Char → Option (List Char)
  | [], l => some l
  | _ :: _, [] => none
  | p :: ps, c :: cs => if p = c then dropPfx ps cs else none

/-- The node state touched by `handle_create_block`: the local chain and the
blocks published on the "blocks" topic so far. -/
structure NodeState where
  tetherion : Tetherion
  broadcasts : List Block
deriving Repr

/-- `handle_create_block`: on a line with prefix `create b`, mine a block with
the verbatim remainder as payload on top of the last block, append it via
`add_block`, and broadcast it exactly when the append succeeded.  `none` models
the panics (empty chain `expect`, double-mine) and a still-running mine loop. -/
def handle_create_block (cmd : List Char) (now : Int) (fuel : Nat) (st : NodeState) :
    Option NodeState :=
  match dropPfx ("create b".data) cmd with
  | none => some st
  | some data =>
    match st.tetherion.blocks.getLast? with
    | none => none
    | some latest =>
      match Block.new (latest.id + 1) latest.hash data st.tetherion.difficulty now fuel with
      | MineResult.mined block =>
        (match st.tetherion.add_block block with
         | some (Except.ok _, t') => some ⟨t', st.broadcasts ++ [block]⟩
         | some (Except.error _, t') => some ⟨t', st.broadcasts⟩
         | none => none)
      | _ => none

theorem mineLoop_zero (b : Block) (d : Nat) : mineLoop 0 b d = none := rfl

theorem mineLoop_succ (fuel : Nat) (b : Block) (d : Nat) :
    mineLoop (fuel + 1) b d =
      if Block.is_valid { b with hash := computeHash b } d
      then some { b with hash := computeHash b }
      else mineLoop fuel { b with hash := computeHash b, nonce := b.nonce + 1 } d := rfl

theorem computeHash_congr (b c : Block) (h1 : b.id = c.id)
    (h2 : b.previous_hash = c.previous_hash) (h3 : b.timestamp = c.timestamp)
    (h4 : b.nonce = c.nonce) (h5 : b.data = c.data) : computeHash b = computeHash c := by
  simp [computeHash, Block.hash_data, h1, h2, h3, h4, h5]

/-- The digest obtained for block `b` when its nonce is set to `n` meets the
difficulty: the iteration of the mining loop that reaches nonce `n` succeeds. -/
def nonceWorks (b : Block) (d n : Nat) : Bool :=
  Block.is_valid { b with nonce := n, hash := computeHash { b with nonce := n } } d

theorem nonceWorks_update (b : Block) (H : List Char) (m d n : Nat) :
    nonceWorks { b with hash := H, nonce := m } d n = nonceWorks b d n := rfl

theorem isPrefixOf_true_iff (l1 l2 : List Char) : l1.isPrefixOf l2 = true ↔ l1 <+: l2 := by
  induction l1 generalizing l2 with
  | nil => simp [List.isPrefixOf]
  | cons a as ih =>
    cases l2 with
    | nil => simp [List.isPrefixOf]
    | cons b bs =>
      simp [List.isPrefixOf, List.cons_prefix_cons, ih, Bool.and_eq_true, beq_iff_eq]

theorem mineLoop_sound : ∀ (fuel : Nat) (b b' : Block) (d : Nat),
    mineLoop fuel b d = some b' →
    b'.is_valid d = true ∧ b'.id = b.id ∧ b'.previous_hash = b.previous_hash ∧
      b'.timestamp = b.timestamp ∧ b'.data = b.data ∧ b.nonce ≤ b'.nonce ∧
      b'.hash = computeHash { b with nonce := b'.nonce } := by
  intro fuel
  induction fuel with
  | zero => intro b b' d h; simp [mineLoop_zero] at h
  | succ fuel ih =>
    intro b b' d h
    rw [mineLoop_succ] at h
    by_cases hv : Block.is_valid { b with hash := computeHash b } d
    · rw [if_pos hv] at h
      obtain rfl : { b with hash := computeHash b } = b' := Option.some.inj h
      exact ⟨hv, rfl, rfl, rfl, rfl, Nat.le_refl _,
        computeHash_congr _ _ rfl rfl rfl rfl rfl⟩
    · rw [if_neg hv] at h
      obtain ⟨h1, h2, h3, h4, h5, h6, h7⟩ :=
        ih { b with hash := computeHash b, nonce := b.nonce + 1 } b' d h
      refine ⟨h1, h2, h3, h4, h5, ?_, ?_⟩
      · simp only at h6; omega
      · rw [h7]
        exact computeHash_congr _ _ rfl rfl rfl rfl rfl

theorem mineLoop_complete : ∀ (k : Nat) (b : Block) (d : Nat),
    nonceWorks b d (b.nonce + k) = true → ∃ b', mineLoop (k + 1) b d = some b' := by
  intro k
  induction k with
  | zero =>
    intro b d h
    refine ⟨{ b with hash := computeHash b }, ?_⟩
    rw [mineLoop_succ, if_pos ?_]
    exact h
  | succ k ih =>
    intro b d h
    rw [mineLoop_succ]
    by_cases hv : Block.is_valid { b with hash := computeHash b } d
    · exact ⟨_, by rw [if_pos hv]⟩
    · rw [if_neg hv]
      apply ih
      rw [nonceWorks_update]
      have harith : b.nonce + 1 + k = b.nonce + (k + 1) := by omega
      rw [harith]
      exact h

/-- Termination of the unbounded Rust mining loop, through the fuelled model:
some fuel makes `Block::mine` return a mined block. -/
def MineTerminates (b : Block) (d : Nat) : Prop :=
  ∃ fuel b', Block.mine fuel b d = MineResult.mined b'

/-- C2 (amended): on a freshly constructed block (nonce 0), `mine` terminates
exactly when some nonce yields a digest with `2·d` leading `'0'` characters,
and whenever it returns, the result satisfies `is_valid(d)` and carries the
input's id, previous hash and payload unchanged. -/
theorem mine_correct (b : Block) (d : Nat) (h0 : b.nonce = 0) :
    (MineTerminates b d ↔ ∃ n, nonceWorks b d n = true) ∧
      ∀ fuel b', Block.mine fuel b d = MineResult.mined b' →
        b'.is_valid d = true ∧ b'.id = b.id ∧ b'.previous_hash = b.previous_hash ∧
          b'.data = b.data := by
  have hguard : ∀ fuel b', Block.mine fuel b d = MineResult.mined b' →
      mineLoop fuel b d = some b' := by
    intro fuel b' h
    rw [Block.mine, if_neg (by simp [h0])] at h
    cases hl : mineLoop fuel b d with
    | none => rw [hl] at h; exact absurd h (by simp)
    | some c => rw [hl] at h; simp only [MineResult.mined.injEq] at h; rw [h]
  constructor
  · constructor
    · rintro ⟨fuel, b', hm⟩
      obtain ⟨hv, _, _, _, _, _, hh⟩ := mineLoop_sound fuel b b' d (hguard fuel b' hm)
      refine ⟨b'.nonce, ?_⟩
      have : Block.is_valid { b with nonce := b'.nonce, hash := computeHash { b with nonce := b'.nonce } } d =
          Block.is_valid b' d := by
        simp only [Block.is_valid, ← hh]
      rw [nonceWorks, this, hv]
    · rintro ⟨n, hn⟩
      have hn' : nonceWorks b d (b.nonce + n) = true := by rw [h0, Nat.zero_add]; exact hn
      obtain ⟨b', hb'⟩ := mineLoop_complete n b d hn'
      refine ⟨n + 1, b', ?_⟩
      rw [Block.mine, if_neg (by simp [h0]), hb']
  · intro fuel b' hm
    obtain ⟨hv, h2, h3, _, h5, _, _⟩ := mineLoop_sound fuel b b' d (hguard fuel b' hm)
    exact ⟨hv, h2, h3, h5⟩

/-- A freshly constructed block (`Block::new` fields before mining): empty
hash, nonce 0, genesis previous-hash sentinel, payload `"p"`. -/
def cexBlock : Block := ⟨0, [], "genesis".data, 0, 0, "p".data⟩

theorem mine_outOfFuel_at_33 (fuel : Nat) :
    Block.mine fuel cexBlock 33 = MineResult.outOfFuel := by
  have hloop : mineLoop fuel cexBlock 33 = none := by
    cases hl : mineLoop fuel cexBlock 33 with
    | none => rfl
    | some b' =>
      exfalso
      obtain ⟨hv, _, _, _, _, _, hh⟩ := mineLoop_sound fuel cexBlock b' 33 hl
      have hlen : b'.hash.length = 64 := by rw [hh]; exact computeHash_length _
      have hpre : List.replicate (33 * 2) '0' <+: b'.hash :=
        (isPrefixOf_true_iff _ _).mp hv
      have := hpre.length_le
      rw [List.length_replicate, hlen] at this
      omega
  rw [Block.mine, if_neg (by simp [cexBlock]), hloop]

/-- C2 (counterexample): at difficulty 33 the required prefix of 66 zero
characters exceeds the 64-character hex digest, so on the concrete freshly
constructed block `cexBlock`, `Block::mine` never returns, whatever fuel the
loop is given: the Rust loop runs forever instead of terminating. -/
theorem mine_never_terminates_at_33 : MineTerminates cexBlock 33 = False :=
  eq_false (fun ⟨fuel, b', hm⟩ => by
    rw [mine_outOfFuel_at_33 fuel] at hm
    exact absurd hm (by simp))

/-- A fresh block whose very first digest wins at difficulty 0. -/
def freshW : Block := ⟨0, [], "genesis".data, 0, 0, "d".data⟩

/-- The result of mining `freshW` at difficulty 0: hash set, nonce still 0. -/
def minedW : Block := { freshW with hash := computeHash freshW }

/-- C5 (counterexample): `minedW` is an already-mined block — its hash is set
(64 characters long) — yet its nonce is 0, so a second invocation of `mine`
passes the `nonce != 0` guard and silently re-mines instead of failing
fatally. -/
theorem remine_nonce_zero_no_panic :
    minedW.nonce = 0 ∧ minedW.hash.length = 64 ∧
      Block.mine 1 minedW 0 = MineResult.mined minedW := by
  have h2 : { minedW with hash := computeHash minedW } = minedW := rfl
  have h1 : Block.is_valid { minedW with hash := computeHash minedW } 0 = true := by
    simp [Block.is_valid, List.isPrefixOf]
  have e1 : mineLoop 1 minedW 0 = some minedW := by
    have e := mineLoop_succ 0 minedW 0
    rw [if_pos h1, h2] at e
    exact e
  refine ⟨rfl, ?_, ?_⟩
  · show (computeHash freshW).length = 64
    exact computeHash_length _
  · rw [Block.mine, if_neg (by simp [minedW, freshW]), e1]

/-- C5 (amended): `mine` fails fatally precisely on blocks whose nonce is
nonzero; the hash field is not consulted by the guard, so a mined block whose
winning nonce was 0 is silently re-mined. -/
theorem mine_panics_iff_nonce_ne_zero (b : Block) :
    (∀ d fuel, Block.mine fuel b d = MineResult.panicked) ↔ b.nonce ≠ 0 := by
  constructor
  · intro h hn0
    have h00 := h 0 0
    rw [Block.mine, if_neg (by simp [hn0]), mineLoop_zero] at h00
    exact absurd h00 (by simp)
  · intro h d fuel
    rw [Block.mine, if_pos h]

/-- Witness for the amended C5 at a concrete block with nonce 7. -/
theorem mine_panics_witness :
    Block.mine 5 ⟨3, [], [], 0, 7, []⟩ 2 = MineResult.panicked :=
  (mine_panics_iff_nonce_ne_zero ⟨3, [], [], 0, 7, []⟩).mpr (by decide) 2 5

/-- C6: `Block::is_valid` holds exactly when the stored hash string starts
with `2·d` literal `'0'` characters — the check reads the stored `hash` field
only, recomputing nothing — and difficulty 0 accepts every block. -/
theorem is_valid_characterisation (b : Block) (d : Nat) :
    (b.is_valid d = true ↔ List.replicate (2 * d) '0' <+: b.hash) ∧
      b.is_valid 0 = true := by
  constructor
  · rw [Block.is_valid, Nat.mul_comm d 2]
    exact isPrefixOf_true_iff _ _
  · rw [Block.is_valid]
    simp [List.isPrefixOf]

/-- Witness for C6: the characterisation applied at difficulty 1 to a block
with two leading zeros, and at difficulty 0 to a block with none. -/
theorem is_valid_characterisation_witness :
    Block.is_valid ⟨0, ['0', '0', 'a'], [], 0, 0, []⟩ 1 = true ∧
      Block.is_valid ⟨0, ['a'], [], 0, 0, []⟩ 0 = true :=
  ⟨(is_valid_characterisation ⟨0, ['0', '0', 'a'], [], 0, 0, []⟩ 1).1.mpr (by decide),
    (is_valid_characterisation ⟨0, ['a'], [], 0, 0, []⟩ 0).2⟩

/-- Witness for the amended C2 at a concrete fresh block and difficulty 0. -/
theorem mine_correct_witness :
    (MineTerminates ⟨0, [], "genesis".data, 0, 0, "w".data⟩ 0 ↔
      ∃ n, nonceWorks ⟨0, [], "genesis".data, 0, 0, "w".data⟩ 0 n = true) ∧
      ∀ fuel b', Block.mine fuel ⟨0, [], "genesis".data, 0, 0, "w".data⟩ 0 =
          MineResult.mined b' →
        b'.is_valid 0 = true ∧ b'.id = 0 ∧ b'.previous_hash = "genesis".data ∧
          b'.data = "w".data :=
  mine_correct ⟨0, [], "genesis".data, 0, 0, "w".data⟩ 0 rfl

/-- C3 (amended): on a chain holding at least one block, `add_block` either
appends the candidate at the end and succeeds, or returns one of the three
typed errors and leaves the block sequence and the difficulty completely
unchanged; `InvalidBlockId` carries the offending id and the expected previous
id, `InvalidDifficulty` the offending id and the required difficulty, and
`InvalidPreviousHash` the offending id only — no expected hash value. -/
theorem add_block_spec (t : Tetherion) (b : Block) (hne : t.blocks ≠ []) :
    ∃ prev, t.blocks.getLast? = some prev ∧
      (t.add_block b = some (Except.ok (), ⟨t.blocks ++ [b], t.difficulty⟩) ∨
        ∃ e, t.add_block b = some (Except.error e, t) ∧
          (e = InvalidBlockError.InvalidBlockId b.id prev.id ∨
            e = InvalidBlockError.InvalidPreviousHash b.id ∨
            e = InvalidBlockError.InvalidDifficulty b.id t.difficulty)) := by
  obtain ⟨prev, hprev⟩ : ∃ p, t.blocks.getLast? = some p := by
    cases hl : t.blocks.getLast? with
    | none => exact absurd (List.getLast?_eq_none_iff.mp hl) hne
    | some p => exact ⟨p, rfl⟩
  have hcases : is_valid_block prev b t.difficulty = Except.ok () ∨
      is_valid_block prev b t.difficulty =
        Except.error (InvalidBlockError.InvalidBlockId b.id prev.id) ∨
      is_valid_block prev b t.difficulty =
        Except.error (InvalidBlockError.InvalidPreviousHash b.id) ∨
      is_valid_block prev b t.difficulty =
        Except.error (InvalidBlockError.InvalidDifficulty b.id t.difficulty) := by
    rw [is_valid_block]
    split
    · right; left; rfl
    · split
      · right; right; left; rfl
      · split
        · right; right; right; rfl
        · left; rfl
  refine ⟨prev, hprev, ?_⟩
  rcases hcases with h | h | h | h
  · left; simp only [Tetherion.add_block, hprev, h]
  · right; exact ⟨_, by simp only [Tetherion.add_block, hprev, h], Or.inl rfl⟩
  · right; exact ⟨_, by simp only [Tetherion.add_block, hprev, h], Or.inr (Or.inl rfl)⟩
  · right; exact ⟨_, by simp only [Tetherion.add_block, hprev, h], Or.inr (Or.inr rfl)⟩

/-- A one-block chain at difficulty 0 used by concrete witnesses. -/
def gW : Block := ⟨0, ['h'], "genesis".data, 5, 0, []⟩

/-- Concrete one-block chain for the witnesses. -/
def chainW : Tetherion := ⟨[gW], 0⟩

/-- A block that extends `chainW` correctly. -/
def okW : Block := ⟨1, ['q'], ['h'], 6, 0, []⟩

/-- Witness for C3 on a concrete chain and candidate. -/
theorem add_block_spec_witness :
    ∃ prev, chainW.blocks.getLast? = some prev ∧
      (chainW.add_block okW =
          some (Except.ok (), ⟨chainW.blocks ++ [okW], chainW.difficulty⟩) ∨
        ∃ e, chainW.add_block okW = some (Except.error e, chainW) ∧
          (e = InvalidBlockError.InvalidBlockId okW.id prev.id ∨
            e = InvalidBlockError.InvalidPreviousHash okW.id ∨
            e = InvalidBlockError.InvalidDifficulty okW.id chainW.difficulty)) :=
  add_block_spec chainW okW (by simp [chainW])

/-- A one-block chain like `chainW` but whose last block's hash is `['k']`,
so its expected previous hash differs from `chainW`'s `['h']`. -/
def chainK : Tetherion := ⟨[⟨0, ['k'], "genesis".data, 5, 0, []⟩], 0⟩

/-- A candidate block with the correct next id 1 but a previous hash matching
neither `chainW`'s nor `chainK`'s last block. -/
def phW : Block := ⟨1, [], ['z'], 6, 0, []⟩

/-- C3 (counterexample): rejecting `phW` for a wrong previous hash yields the
very same error value `InvalidPreviousHash 1` on two chains whose expected
previous hashes differ (`['h']` vs `['k']`): the `InvalidPreviousHash` error
carries the offending block id but no expected value, so the claim that each
error carries the offending id and the relevant expected value is false. -/
theorem invalid_previous_hash_no_expected_value :
    chainW.blocks.getLast?.map Block.hash = some ['h'] ∧
      chainK.blocks.getLast?.map Block.hash = some ['k'] ∧
      chainW.add_block phW =
        some (Except.error (InvalidBlockError.InvalidPreviousHash 1), chainW) ∧
      chainK.add_block phW =
        some (Except.error (InvalidBlockError.InvalidPreviousHash 1), chainK) :=
  ⟨rfl, rfl, rfl, rfl⟩

/-- C4: the three validation checks are applied in a fixed order — id
continuity, then previous-hash linkage, then difficulty — and the earliest
failing check determines the reported error. -/
theorem is_valid_block_order (prev b : Block) (d : Nat) :
    (b.id ≠ prev.id + 1 →
      is_valid_block prev b d =
        Except.error (InvalidBlockError.InvalidBlockId b.id prev.id)) ∧
    (b.id = prev.id + 1 → b.previous_hash ≠ prev.hash →
      is_valid_block prev b d =
        Except.error (InvalidBlockError.InvalidPreviousHash b.id)) ∧
    (b.id = prev.id + 1 → b.previous_hash = prev.hash → b.is_valid d = false →
      is_valid_block prev b d =
        Except.error (InvalidBlockError.InvalidDifficulty b.id d)) := by
  refine ⟨fun h1 => ?_, fun h1 h2 => ?_, fun h1 h2 h3 => ?_⟩
  · rw [is_valid_block, if_pos h1]
  · rw [is_valid_block, if_neg (by simp [h1]), if_pos h2]
  · rw [is_valid_block, if_neg (by simp [h1]), if_neg (by simp [h2]), if_pos h3]

/-- A block failing the id check, the hash linkage and the difficulty at once. -/
def badW : Block := ⟨5, ['x'], ['x'], 0, 0, []⟩

/-- Witness for C4: `badW` fails all three checks against `gW` at difficulty 1,
and the reported error is the id mismatch, the earliest in the fixed order. -/
theorem is_valid_block_order_witness :
    is_valid_block gW badW 1 =
        Except.error (InvalidBlockError.InvalidBlockId 5 0) ∧
      badW.previous_hash ≠ gW.hash ∧ badW.is_valid 1 = false :=
  ⟨(is_valid_block_order gW badW 1).1 (by decide), by decide, by decide⟩

/-- C9: a chain value whose block sequence is empty — constructible at the
public interface as the `tetherion` field of a deserialised `ChainResponse` —
passes `Tetherion::is_valid`: the pairwise loop starting at index 1 performs
no checks, so the at-least-one-genesis-block invariant is not enforced. -/
theorem empty_chain_is_valid (d : Nat) (r : List Char) :
    (ChainResponse.mk ⟨[], d⟩ r).tetherion.is_valid = Except.ok () := rfl

/-- C1: fork-choice between two valid chains selects the longer one in either
argument order; at equal length it selects the chain with the smaller (older)
genesis creation timestamp in either order; and when exactly one of the two
chains is valid it selects the valid one in either order. -/
theorem fork_choice_spec (lc rc : Tetherion) :
    (lc.is_valid = Except.ok () → rc.is_valid = Except.ok () →
      rc.blocks.length < lc.blocks.length →
      chooseChain lc rc = some lc ∧ chooseChain rc lc = some lc) ∧
    (lc.is_valid = Except.ok () → rc.is_valid = Except.ok () →
      lc.blocks.length = rc.blocks.length →
      ∀ lt rt, lc.creation_timestamp = some lt → rc.creation_timestamp = some rt →
        lt < rt → chooseChain lc rc = some lc ∧ chooseChain rc lc = some lc) ∧
    (lc.is_valid = Except.ok () → (∃ e, rc.is_valid = Except.error e) →
      chooseChain lc rc = some lc ∧ chooseChain rc lc = some lc) := by
  refine ⟨fun hL hR hlen => ?_, fun hL hR hlen lt rt hlt hrt hord => ?_,
    fun hL ⟨e, hR⟩ => ?_⟩
  · have hbt : is_better_than lc rc = some true := by
      simp only [is_better_than, hL, hR,
        if_neg (by omega : ¬ lc.blocks.length = rc.blocks.length),
        Option.some.injEq, decide_eq_true_eq]
      omega
    have hbt' : is_better_than rc lc = some false := by
      simp only [is_better_than, hL, hR,
        if_neg (by omega : ¬ rc.blocks.length = lc.blocks.length),
        Option.some.injEq, decide_eq_false_iff_not]
      omega
    exact ⟨by simp [chooseChain, hbt], by simp [chooseChain, hbt']⟩
  · have hbt : is_better_than lc rc = some true := by
      simp only [is_better_than, hL, hR, if_pos hlen, hlt, hrt,
        Option.some.injEq, decide_eq_true_eq]
      omega
    have hbt' : is_better_than rc lc = some false := by
      simp only [is_better_than, hL, hR, if_pos hlen.symm, hlt, hrt,
        Option.some.injEq, decide_eq_false_iff_not]
      omega
    exact ⟨by simp [chooseChain, hbt], by simp [chooseChain, hbt']⟩
  · have hbt : is_better_than lc rc = some true := by
      simp only [is_better_than, hL, hR]
    have hbt' : is_better_than rc lc = some false := by
      simp only [is_better_than, hL, hR]
    exact ⟨by simp [chooseChain, hbt], by simp [chooseChain, hbt']⟩

/-- A valid two-block chain at difficulty 0 (genesis timestamp 5). -/
def chain2W : Tetherion := ⟨[gW, okW], 0⟩

/-- A valid one-block chain whose genesis timestamp 3 is older than `gW`'s 5. -/
def chainOldW : Tetherion := ⟨[⟨0, ['b'], "genesis".data, 3, 0, []⟩], 0⟩

/-- An invalid chain: the second block's id 5 does not follow 0. -/
def chainBadW : Tetherion := ⟨[gW, badW], 0⟩

/-- Another invalid chain, with a different id gap. -/
def chainBad2W : Tetherion := ⟨[⟨7, [], [], 0, 0, []⟩, ⟨9, [], [], 0, 0, []⟩], 0⟩

/-- Witness for C1: lengths 2 vs 1, timestamps 3 vs 5 at equal length, and a
valid chain against an invalid one, each in both argument orders. -/
theorem fork_choice_spec_witness :
    (chooseChain chain2W chainW = some chain2W ∧
      chooseChain chainW chain2W = some chain2W) ∧
    (chooseChain chainOldW chainW = some chainOldW ∧
      chooseChain chainW chainOldW = some chainOldW) ∧
    (chooseChain chainW chainBadW = some chainW ∧
      chooseChain chainBadW chainW = some chainW) :=
  ⟨(fork_choice_spec chain2W chainW).1 (by rfl) (by rfl) (by decide),
    (fork_choice_spec chainOldW chainW).2.1 (by rfl) (by rfl) (by decide)
      3 5 (by rfl) (by rfl) (by decide),
    (fork_choice_spec chainW chainBadW).2.2 (by rfl)
      ⟨InvalidBlockError.InvalidBlockId 5 0, by rfl⟩⟩

/-- C7: when the local and the remote chain are both invalid, fork-choice
panics (modelled as `none`): neither chain is selected. -/
theorem both_invalid_panic (lc rc : Tetherion) (e1 e2 : InvalidBlockError)
    (h1 : lc.is_valid = Except.error e1) (h2 : rc.is_valid = Except.error e2) :
    is_better_than lc rc = none ∧ chooseChain lc rc = none := by
  have hbt : is_better_than lc rc = none := by
    simp only [is_better_than, h1, h2]
  exact ⟨hbt, by simp [chooseChain, hbt]⟩

/-- Witness for C7 on two concrete invalid chains. -/
theorem both_invalid_panic_witness :
    is_better_than chainBadW chainBad2W = none ∧
      chooseChain chainBadW chainBad2W = none :=
  both_invalid_panic chainBadW chainBad2W
    (InvalidBlockError.InvalidBlockId 5 0) (InvalidBlockError.InvalidBlockId 9 7)
    (by rfl) (by rfl)

/-- C10: when both chains are valid, of equal length and with equal genesis
creation timestamps, the local chain is judged better, and processing the
addressed `ChainResponse` keeps the local chain instead of adopting the
remote one. -/
theorem equal_chains_keep_local (myId : List Char) (lc : Tetherion)
    (resp : ChainResponse) (hrecv : resp.receiver = myId)
    (hL : lc.is_valid = Except.ok ())
    (hR : resp.tetherion.is_valid = Except.ok ())
    (hlen : lc.blocks.length = resp.tetherion.blocks.length)
    (t : Int) (hlt : lc.creation_timestamp = some t)
    (hrt : resp.tetherion.creation_timestamp = some t) :
    is_better_than lc resp.tetherion = some true ∧
      processChainResponse myId lc resp = some lc := by
  have hbt : is_better_than lc resp.tetherion = some true := by
    simp only [is_better_than, hL, hR, if_pos hlen, hlt, hrt,
      Option.some.injEq, decide_eq_true_eq]
    omega
  exact ⟨hbt, by simp [processChainResponse, chooseChain, hrecv, hbt]⟩

/-- A valid one-block chain distinct from `chainOldW` with the same genesis
timestamp 3. -/
def chainOldW2 : Tetherion := ⟨[⟨0, ['c'], "genesis".data, 3, 0, []⟩], 0⟩

/-- Witness for C10 on two concrete equal-length chains with equal genesis
timestamps. -/
theorem equal_chains_keep_local_witness :
    is_better_than chainOldW chainOldW2 = some true ∧
      processChainResponse ("me".data) chainOldW
        (ChainResponse.mk chainOldW2 ("me".data)) = some chainOldW :=
  equal_chains_keep_local ("me".data) chainOldW
    (ChainResponse.mk chainOldW2 ("me".data)) (by rfl) (by rfl) (by rfl)
    (by rfl) 3 (by rfl) (by rfl)

/-- C8: on an operator line starting with `create b`, when the chain is
nonempty and the mining loop returns, the node mines a block whose payload is
exactly the verbatim remainder of the line (leading space included), whose id
is the last local block's id + 1 and whose previous hash is the last local
block's hash; `add_block` appends it successfully, and the block is broadcast
on the "blocks" topic exactly because the append succeeded. -/
theorem handle_create_block_spec (st : NodeState) (cmd rest : List Char)
    (now : Int) (fuel : Nat) (latest blk : Block)
    (hcmd : dropPfx ("create b".data) cmd = some rest)
    (hlast : st.tetherion.blocks.getLast? = some latest)
    (hmine : Block.new (latest.id + 1) latest.hash rest st.tetherion.difficulty now fuel =
      MineResult.mined blk) :
    blk.data = rest ∧ blk.id = latest.id + 1 ∧ blk.previous_hash = latest.hash ∧
      blk.is_valid st.tetherion.difficulty = true ∧
      st.tetherion.add_block blk =
        some (Except.ok (), ⟨st.tetherion.blocks ++ [blk], st.tetherion.difficulty⟩) ∧
      handle_create_block cmd now fuel st =
        some ⟨⟨st.tetherion.blocks ++ [blk], st.tetherion.difficulty⟩,
          st.broadcasts ++ [blk]⟩ := by
  have hl : mineLoop fuel ⟨latest.id + 1, [], latest.hash, now, 0, rest⟩
      st.tetherion.difficulty = some blk := by
    rw [Block.new, Block.mine, if_neg (by simp)] at hmine
    cases hml : mineLoop fuel ⟨latest.id + 1, [], latest.hash, now, 0, rest⟩
        st.tetherion.difficulty with
    | none => rw [hml] at hmine; exact absurd hmine (by simp)
    | some c =>
      rw [hml] at hmine
      simp only [MineResult.mined.injEq] at hmine
      rw [hmine]
  obtain ⟨hv, hid, hprev, _, hdata, _, _⟩ :=
    mineLoop_sound fuel ⟨latest.id + 1, [], latest.hash, now, 0, rest⟩ blk
      st.tetherion.difficulty hl
  have hvb : is_valid_block latest blk st.tetherion.difficulty = Except.ok () := by
    rw [is_valid_block, if_neg (by simp [hid]), if_neg (by simp [hprev]),
      if_neg (by simp [hv])]
  have hadd : st.tetherion.add_block blk =
      some (Except.ok (), ⟨st.tetherion.blocks ++ [blk], st.tetherion.difficulty⟩) := by
    simp only [Tetherion.add_block, hlast, hvb]
  refine ⟨hdata, hid, hprev, hv, hadd, ?_⟩
  simp only [handle_create_block, hcmd, hlast, hmine, hadd]

/-- The fresh block mined for the command `create b hi` on top of `gW`. -/
def freshC8 : Block := ⟨1, [], ['h'], 0, 0, " hi".data⟩

/-- The mined block for the command `create b hi` at difficulty 0. -/
def blkC8 : Block := { freshC8 with hash := computeHash freshC8 }

/-- The node state for the C8 witness: the one-block chain `chainW`, nothing
broadcast yet. -/
def stW : NodeState := ⟨chainW, []⟩

/-- Witness for C8: issuing `create b hi` on a node holding only `gW` at
difficulty 0 appends and broadcasts a block with payload `" hi"`. -/
theorem handle_create_block_spec_witness :
    blkC8.data = " hi".data ∧ blkC8.id = gW.id + 1 ∧ blkC8.previous_hash = gW.hash ∧
      blkC8.is_valid stW.tetherion.difficulty = true ∧
      stW.tetherion.add_block blkC8 =
        some (Except.ok (), ⟨stW.tetherion.blocks ++ [blkC8], stW.tetherion.difficulty⟩) ∧
      handle_create_block ("create b hi".data) 0 1 stW =
        some ⟨⟨stW.tetherion.blocks ++ [blkC8], stW.tetherion.difficulty⟩,
          stW.broadcasts ++ [blkC8]⟩ := by
  have h1 : Block.is_valid { freshC8 with hash := computeHash freshC8 } 0 = true := by
    simp [Block.is_valid, List.isPrefixOf]
  have e1 : mineLoop 1 freshC8 0 = some blkC8 := by
    have e := mineLoop_succ 0 freshC8 0
    rw [if_pos h1] at e
    exact e
  have hmine : Block.new (gW.id + 1) gW.hash (" hi".data) stW.tetherion.difficulty 0 1 =
      MineResult.mined blkC8 := by
    show Block.mine 1 freshC8 0 = MineResult.mined blkC8
    rw [Block.mine, if_neg (by decide), e1]
  exact handle_create_block_spec stW ("create b hi".data) (" hi".data) 0 1 gW blkC8
    (by rfl) (by rfl) hmine
